import Mathlib

/-!
Verification model of the `elikoga-ical-rs` iCalendar library
(src/content_line.rs, src/fold.rs, src/unfold.rs, src/ical_object.rs).

Modelling conventions.

* Rust `String`/`&str` values and the byte stream fed to the unfolder are
  modelled as `List Char` (Unicode scalar values).  All byte comparisons the
  source performs are against ASCII bytes (`b' '`, `b'\t'`, `b'\r'`, `b'\n'`,
  `b';'`, `b':'`, `b','`, `b'='`, `b'"'`) or against ASCII classes
  (`is_ascii_alphanumeric`, `is_ascii_control`); on a valid UTF-8 stream a byte
  in the ASCII range occurs exactly at the corresponding scalar, and every byte
  of a multi-byte scalar is `≥ 0x80`, so these byte tests coincide with the
  scalar-level tests used here.  `String::from_utf8` therefore always succeeds
  at the points the source calls it (the buffers are scalar-aligned slices of a
  valid stream) and is modelled as the identity.

* Byte lengths (`char::len_utf8`) are computed by `lenUtf8`, mirroring the
  UTF-8 encoded size of a scalar, so folding widths are exact encoded-byte
  counts as in the source.

* Rust `panic!`/`assert!`/out-of-bounds indexing is a distinct observable
  outcome and is modelled by an explicit `panic` result constructor.

* Source loops whose progress measure is not structural are given a fuel
  parameter; every call site passes `input.length + 1`, which dominates the
  number of iterations (each iteration consumes at least one element), so the
  `outOfFuel`/`fuelOut` constructors are dead code kept only to make the
  recursion structural.
-/

/-- Characters of a string literal, used to write concrete inputs. -/
def cstr (s : String) : List Char := s.data

/-- `buf[0] == b' ' || buf[0] == b'\t'` on a nonempty buffer ( `false` on `[]`). -/
def wsHead : List Char → Bool
  | [] => false
  | c :: _ => c = ' ' || c = '\t'

/-- `u8::to_ascii_lowercase` at scalar level. -/
def asciiLower (c : Char) : Char :=
  if 'A' ≤ c ∧ c ≤ 'Z' then Char.ofNat (c.toNat + 32) else c

/-- `str::eq_ignore_ascii_case`. -/
def eqIgnoreAsciiCase (a b : List Char) : Bool :=
  a.map asciiLower = b.map asciiLower

/-- `char::len_utf8`: the number of bytes of the scalar's UTF-8 encoding. -/
def lenUtf8 (c : Char) : Nat :=
  if c.toNat < 0x80 then 1
  else if c.toNat < 0x800 then 2
  else if c.toNat < 0x10000 then 3
  else 4

/-- `u8::is_ascii_control` (0x00–0x1F and 0x7F) at scalar level. -/
def isAsciiControl (c : Char) : Bool :=
  c.toNat ≤ 0x1F || c.toNat = 0x7F

/-- Character allowed by `build_name`: ASCII alphanumeric or hyphen
(the source's `is_ascii_digit` disjunct is subsumed by `is_ascii_alphanumeric`). -/
def isNameChar (c : Char) : Bool :=
  ('A' ≤ c && c ≤ 'Z') || ('a' ≤ c && c ≤ 'z') || ('0' ≤ c && c ≤ '9') || c = '-'

/-- Character REJECTED by `build_qsafe`: control (except tab) or `"`. -/
def qsafeReject (c : Char) : Bool :=
  (isAsciiControl c && !(c = '\t')) || c = '"'

/-- Character REJECTED by `build_safe`: control (except tab), `"`, `;`, `:` or `,`. -/
def safeReject (c : Char) : Bool :=
  (isAsciiControl c && !(c = '\t')) || c = '"' || c = ';' || c = ':' || c = ','

/-- Character REJECTED by `build_value`: control characters other than tab. -/
def valueReject (c : Char) : Bool :=
  isAsciiControl c && !(c = '\t')

/-- Concatenation of a list of lists (explicit, to keep every lemma local). -/
def concatL : List (List α) → List α
  | [] => []
  | x :: xs => x ++ concatL xs

/-! ## Data model (`ContentLine`, `Param`, `ICalObject`) -/

/-- `Param { name, values }` from src/content_line.rs. -/
structure Param where
  name : List Char
  values : List (List Char)
deriving DecidableEq, Repr

/-- `ContentLine { name, params, value }` from src/content_line.rs. -/
structure ContentLine where
  name : List Char
  params : List Param
  value : List Char
deriving DecidableEq, Repr

/-- `ICalObject { object_type, properties, sub_objects }` from src/ical_object.rs. -/
inductive ICalObject where
  | mk (objectType : List Char) (properties : List ContentLine)
       (subObjects : List ICalObject)

/-- `object_type` field accessor. -/
def ICalObject.objectType : ICalObject → List Char
  | .mk t _ _ => t

/-! ## `impl Display for ContentLine` (src/content_line.rs lines 37–54) -/

/-- One formatted parameter value: wrapped in double quotes exactly when it
contains `;`, `:` or `,` (the `memchr3` test in the `Display` impl). -/
def paramValueChars (v : List Char) : List Char :=
  if v.any (fun c => c = ';' || c = ':' || c = ',') then '"' :: v ++ ['"'] else v

/-- One formatted parameter: `;name=` followed by each value in turn.
The source writes the values back to back, with no separator between them. -/
def paramChars (p : Param) : List Char :=
  ';' :: p.name ++ '=' :: concatL (p.values.map paramValueChars)

/-- `ContentLine::to_string` (the `Display` impl). -/
def contentLineToString (cl : ContentLine) : List Char :=
  cl.name ++ concatL (cl.params.map paramChars) ++ ':' :: cl.value

/-! ## `impl FromStr for ContentLine` (src/content_line.rs lines 116–186) -/

/-- Grammar-error kinds of the content-line parser; one constructor per
`eyre!` site in src/content_line.rs (positional payloads are dropped). -/
inductive CLErr where
  | noNameDelim   -- "no ';' or ':' found"
  | invalidName   -- build_name failure
  | noEq          -- "no '=' found"
  | noQuote       -- closing '"' not found
  | invalidQSafe  -- build_qsafe failure
  | noValueDelim  -- "no ',' or ';' or ':' found"
  | invalidSafe   -- build_safe failure
  | noColon       -- "no ':' found"
  | invalidValue  -- build_value failure
deriving DecidableEq, Repr

/-- Result of `ContentLine::from_str`; `panic` models the source's
out-of-bounds indexing panics, `fuelOut` is dead code (see module comment). -/
inductive CLResult where
  | ok (cl : ContentLine)
  | err (e : CLErr)
  | panic
  | fuelOut
deriving DecidableEq, Repr

/-- `memchr`-style scan: the part strictly before the first character
satisfying `p`, and the suffix starting at that character; `none` if absent. -/
def findSplit (p : Char → Bool) : List Char → Option (List Char × List Char)
  | [] => none
  | c :: rest =>
      if p c then some ([], c :: rest)
      else
        match findSplit p rest with
        | none => none
        | some (a, b) => some (c :: a, b)

/-- Result of the parameter-value loop: the collected values and the suffix
starting at the terminator character that ended the loop. -/
inductive PVRes where
  | ok (vals : List (List Char)) (rest : List Char)
  | err (e : CLErr)
  | panic
  | fuelOut
deriving DecidableEq, Repr

/-- The do-while loop collecting one parameter's comma-separated values
(src/content_line.rs lines 139–163).  `s` is the text just after the `=` or
`,` the loop body has consumed (`cursor += 1`).  An empty `s` corresponds to
the source indexing `raw_line.as_bytes()[cursor]` out of bounds: a panic. -/
def parseParamValues : Nat → List Char → List (List Char) → PVRes
  | 0, _, _ => .fuelOut
  | _ + 1, [], _ => .panic
  | fuel + 1, '"' :: rest, acc =>
      -- quoted value: scan to the next '"'
      match findSplit (fun c => c = '"') rest with
      | none => .err .noQuote
      | some (v, _ :: afterQuote) =>
          if v.all (fun c => !qsafeReject c) then
            -- cursor now sits right after the closing quote; the loop
            -- condition indexes that position: out of bounds ⇒ panic
            match afterQuote with
            | [] => .panic
            | ',' :: r2 => parseParamValues fuel r2 (acc ++ [v])
            | t :: r2 => .ok (acc ++ [v]) (t :: r2)
          else .err .invalidQSafe
      | some (_, []) => .err .noQuote    -- unreachable: findSplit keeps the delimiter
  | fuel + 1, c :: rest, acc =>
      -- unquoted value: scan to the next ',', ';' or ':'
      match findSplit (fun d => d = ',' || d = ';' || d = ':') (c :: rest) with
      | none => .err .noValueDelim
      | some (v, t :: r2) =>
          if v.all (fun d => !safeReject d) then
            if t = ',' then parseParamValues fuel r2 (acc ++ [v])
            else .ok (acc ++ [v]) (t :: r2)
          else .err .invalidSafe
      | some (_, []) => .err .noValueDelim -- unreachable: findSplit keeps the delimiter

/-- Result of the parameter loop: collected params and remaining suffix. -/
inductive PPRes where
  | ok (params : List Param) (rest : List Char)
  | err (e : CLErr)
  | panic
  | fuelOut
deriving DecidableEq, Repr

/-- The `while raw_line.as_bytes()[cursor] == b';'` parameter loop
(src/content_line.rs lines 129–170).  `s` starts at the loop-condition
position (the character after the name, or after a parameter). -/
def parseParams : Nat → List Char → List Param → PPRes
  | 0, _, _ => .fuelOut
  | fuel + 1, ';' :: rest, acc =>
      match findSplit (fun c => c = '=') rest with
      | none => .err .noEq
      | some (pname, _ :: afterEq) =>
          if pname.all isNameChar then
            match parseParamValues (afterEq.length + 1) afterEq [] with
            | .ok vals rest2 => parseParams fuel rest2 (acc ++ [⟨pname, vals⟩])
            | .err e => .err e
            | .panic => .panic
            | .fuelOut => .fuelOut
          else .err .invalidName
      | some (_, []) => .err .noEq       -- unreachable: findSplit keeps the delimiter
  | _ + 1, s, acc => .ok acc s

/-- `ContentLine::from_str`.  After the parameter loop the source checks
`raw_line.as_bytes()[cursor] != b':'`; with the suffix empty that index is out
of bounds, a panic (unreachable in practice, but modelled faithfully). -/
def contentLineFromStr (raw : List Char) : CLResult :=
  match findSplit (fun c => c = ';' || c = ':') raw with
  | none => .err .noNameDelim
  | some (name, suffix) =>
      if name.all isNameChar then
        match parseParams (raw.length + 1) suffix [] with
        | .ok params rest =>
            match rest with
            | [] => .panic
            | ':' :: v =>
                if v.all (fun c => !valueReject c) then .ok ⟨name, params, v⟩
                else .err .invalidValue
            | _ :: _ => .err .noColon
        | .err e => .err e
        | .panic => .panic
        | .fuelOut => .fuelOut
      else .err .invalidName

/-! ## Folder (src/fold.rs) -/

/-- The character loop of `fold_with_max_length` (src/fold.rs lines 13–28);
`cur` is `current_line_length`.  On overflow the source pushes `'\r'`, `'\n'`,
`' '`, then the character, and resets the counter to
`' '.len_utf8() + c.len_utf8()`. -/
def foldGo (maxLength : Nat) : List Char → Nat → List Char
  | [], _ => []
  | c :: cs, cur =>
      if cur + lenUtf8 c > maxLength then
        '\r' :: '\n' :: ' ' :: c :: foldGo maxLength cs (lenUtf8 ' ' + lenUtf8 c)
      else
        c :: foldGo maxLength cs (cur + lenUtf8 c)

/-- `fold_with_max_length` from src/fold.rs. -/
def foldWithMaxLength (line : List Char) (maxLength : Nat) : List Char :=
  foldGo maxLength line 0

/-- `fold` from src/fold.rs: width 75. -/
def fold (line : List Char) : List Char :=
  foldWithMaxLength line 75

/-- The spec's description of the folder (§4.2): walk the line character by
character; whenever adding the next character would make the current physical
segment exceed `max_width` encoded bytes, insert CRLF plus one SPACE before
that character and reset the segment-length counter to one plus that
character's encoded length. -/
def foldSpecGo (maxWidth : Nat) : List Char → Nat → List Char
  | [], _ => []
  | c :: cs, segLen =>
      if segLen + lenUtf8 c > maxWidth then
        '\r' :: '\n' :: ' ' :: c :: foldSpecGo maxWidth cs (1 + lenUtf8 c)
      else
        c :: foldSpecGo maxWidth cs (segLen + lenUtf8 c)

/-- The folder as described by the specification text. -/
def foldSpecModel (line : List Char) (maxWidth : Nat) : List Char :=
  foldSpecGo maxWidth line 0

/-- Remove every folding break (the exact triple CR LF SPACE) from a folded
line; inverse of the break insertion when the line itself has no CR/LF. -/
def stripFoldBreaks : List Char → List Char
  | '\r' :: '\n' :: ' ' :: rest => stripFoldBreaks rest
  | c :: rest => c :: stripFoldBreaks rest
  | [] => []

/-- `Vec::join("\r\n")`: the folded physical segments interleaved with CRLF. -/
def interCRLF : List (List Char) → List Char
  | [] => []
  | [s] => s
  | s :: ss => s ++ '\r' :: '\n' :: interCRLF ss

/-- `fold_and_join` from src/fold.rs lines 33–43: fold each line, join with
CRLF, append a trailing CRLF. -/
def foldAndJoin (lines : List (List Char)) : List Char :=
  interCRLF (lines.map fold) ++ ['\r', '\n']

/-- The physical segments produced by `foldGo maxLength cs cur`: the head is
the remainder of the current physical segment, later entries are the inserted
continuation segments (each starting with the SPACE marker). -/
def foldSegs (maxLength : Nat) : List Char → Nat → List (List Char)
  | [], _ => [[]]
  | c :: cs, cur =>
      if cur + lenUtf8 c > maxLength then
        match foldSegs maxLength cs (lenUtf8 ' ' + lenUtf8 c) with
        | [] => [[], [' ', c]]                -- unreachable: foldSegs is never []
        | s :: ss => [] :: (' ' :: c :: s) :: ss
      else
        match foldSegs maxLength cs (cur + lenUtf8 c) with
        | [] => [[c]]                         -- unreachable: foldSegs is never []
        | s :: ss => (c :: s) :: ss

/-! ## Unfolder (src/unfold.rs) -/

/-- Error kinds of `Unfold::next`; one constructor per returned error site
(`encoding` failures cannot arise at scalar granularity, see module comment). -/
inductive UnfoldErr where
  | malformedTermination  -- read_until reached EOF with last byte ≠ CR
  | readFailed            -- read_exact for the LF failed (EOF right after CR)
  | emptyLine             -- empty logical line in the loop
deriving DecidableEq, Repr

/-- Outcome of one `Unfold::next` call. `eos` is `None`; `panic` models the
source's `assert!` failures; `outOfFuel` is dead code. -/
inductive UnfoldNextRes where
  | eos
  | ok (line : List Char)
  | err (e : UnfoldErr)
  | panic
  | outOfFuel
deriving DecidableEq, Repr

/-- The unfolder's carried state: the unread remainder of the stream and the
`last_line` lookahead buffer. -/
structure UnfoldState where
  rem : List Char
  lastLine : Option (List Char)
deriving DecidableEq, Repr

/-- `BufRead::read_until(b'\r')`: the chunk up to and including the first CR
(or the whole input when no CR occurs), and the rest of the stream. -/
def readUntilCR : List Char → List Char × List Char
  | [] => ([], [])
  | c :: rest =>
      if c = '\r' then ([c], rest)
      else
        let r := readUntilCR rest
        (c :: r.1, r.2)

/-- The `loop` of `Unfold::next` (src/unfold.rs lines 90–151), with `buf` the
accumulated logical line (`byte_buf`).  Per iteration: read up to CR — EOF
means `None`, discarding `buf`; a chunk not ending in CR is a malformed
termination (the bad buffer is preserved in `last_line`); then the byte after
the CR must be LF (EOF ⇒ read error, otherwise `assert!` ⇒ panic); an empty
line errors; a whitespace-led line is a continuation; any other line flushes
`buf` (UTF-8 decoding always succeeds here, see module comment). -/
def unfoldLoopF : Nat → List Char → List Char → UnfoldNextRes × UnfoldState
  | 0, _, rem => (.outOfFuel, ⟨rem, none⟩)
  | fuel + 1, buf, rem =>
      let chunk := (readUntilCR rem).1
      let rest := (readUntilCR rem).2
      if chunk = [] then (.eos, ⟨[], none⟩)
      else if chunk.getLast? = some '\r' then
        match rest with
        | [] => (.err .readFailed, ⟨[], none⟩)
        | c :: rest2 =>
            if c = '\n' then
              let line := chunk.dropLast
              if line = [] then (.err .emptyLine, ⟨rest2, none⟩)
              else if wsHead line then unfoldLoopF fuel (buf ++ line.tail) rest2
              else (.ok buf, ⟨rest2, some line⟩)
            else (.panic, ⟨rest2, none⟩)
      else (.err .malformedTermination, ⟨rest, some chunk⟩)

/-- `Unfold::next` (src/unfold.rs lines 40–152).  With a buffered `last_line`
the call starts directly in the loop.  Otherwise the first line is read: EOF
yields `None`; a first line beginning with SPACE/TAB fails the source's
`assert!` (panic); a chunk not ending in CR is a malformed termination; then
the byte after CR must be LF (EOF ⇒ read error, non-LF ⇒ `assert!` panic). -/
def unfoldNext : UnfoldState → UnfoldNextRes × UnfoldState
  | ⟨rem, some buf⟩ => unfoldLoopF (rem.length + 1) buf rem
  | ⟨rem, none⟩ =>
      let chunk := (readUntilCR rem).1
      let rest := (readUntilCR rem).2
      if chunk = [] then (.eos, ⟨rem, none⟩)
      else if wsHead chunk then (.panic, ⟨rest, none⟩)
      else if chunk.getLast? = some '\r' then
        match rest with
        | [] => (.err .readFailed, ⟨[], none⟩)
        | c :: rest2 =>
            if c = '\n' then unfoldLoopF (rest2.length + 1) chunk.dropLast rest2
            else (.panic, ⟨rest2, none⟩)
      else (.err .malformedTermination, ⟨rest, some chunk⟩)

/-- Driving the unfolder to exhaustion: the sequence of items it yields and
whether it hit a panic (iteration stops at `None` or at a panic). -/
def unfoldAllF : Nat → UnfoldState → List (Except UnfoldErr (List Char)) × Bool
  | 0, _ => ([], false)
  | fuel + 1, st =>
      match unfoldNext st with
      | (.eos, _) => ([], false)
      | (.panic, _) => ([], true)
      | (.outOfFuel, _) => ([], false)
      | (.ok l, st2) =>
          let r := unfoldAllF fuel st2
          (.ok l :: r.1, r.2)
      | (.err e, st2) =>
          let r := unfoldAllF fuel st2
          (.error e :: r.1, r.2)

/-- The unfolder's full output from a given state (canonical fuel: every
yielded item consumes at least one character of the stream). -/
def unfoldAll (st : UnfoldState) : List (Except UnfoldErr (List Char)) × Bool :=
  unfoldAllF (st.rem.length + 1) st

/-- A stream made of CRLF-terminated physical lines: each entry followed by
CRLF, concatenated. -/
def joinCRLF : List (List Char) → List Char
  | [] => []
  | p :: ps => p ++ '\r' :: '\n' :: joinCRLF ps

/-- Longest prefix of whitespace-led physical lines, and the remainder. -/
def spanWS : List (List Char) → List (List Char) × List (List Char)
  | [] => ([], [])
  | p :: ps =>
      if wsHead p then
        let r := spanWS ps
        (p :: r.1, r.2)
      else ([], p :: ps)

/-- Reference recombination of physical lines into yielded logical lines, with
`buf` the line buffered so far: a whitespace-led line is appended (marker
stripped), any other line flushes `buf`; the run-out buffer is dropped. -/
def chopLogical (buf : List Char) : List (List Char) → List (Except UnfoldErr (List Char))
  | [] => []
  | p :: ps =>
      if wsHead p then chopLogical (buf ++ p.tail) ps
      else .ok buf :: chopLogical p ps

/-- A logical line acceptable to the fold/unfold round trip: nonempty, free of
CR and LF, not beginning with SPACE or TAB. -/
def goodLine (l : List Char) : Prop :=
  l ≠ [] ∧ '\r' ∉ l ∧ '\n' ∉ l ∧ wsHead l = false

instance (l : List Char) : Decidable (goodLine l) := by
  unfold goodLine; infer_instance

/-! ## Object tree builder (src/ical_object.rs) -/

/-- Error kinds of `ICalObject::from_peekable`. -/
inductive BuildErr where
  | noLine                              -- "no line found"
  | itemErr (e : CLErr)                 -- propagated item error
  | expectedBegin                       -- "expected BEGIN"
  | mismatchedEnd (expected : List Char) -- "expected END:{object_type}"
deriving DecidableEq, Repr

/-- Outcome of the builder: the object and the unconsumed items, or an error;
`panic` propagates a panicking item; `fuelOut` is dead code. -/
inductive BuildOut where
  | ok (o : ICalObject) (rest : List CLResult)
  | err (e : BuildErr)
  | panic
  | fuelOut

/-- `line.name.eq_ignore_ascii_case("BEGIN")`. -/
def isBeginName (n : List Char) : Bool := eqIgnoreAsciiCase n (cstr "BEGIN")

/-- `line.name.eq_ignore_ascii_case("END")`. -/
def isEndName (n : List Char) : Bool := eqIgnoreAsciiCase n (cstr "END")

/-- The Body loop of `ICalObject::from_peekable` (src/ical_object.rs lines
29–56), one fuel per consumed item.  `t` is this level's `object_type`.
End of stream exits the `while let` and returns the object built so far; a
peeked error item is consumed and surfaced; an END is consumed and its value
compared (exact string equality) with `t`; a BEGIN starts a recursive level
(the recursion consumes the BEGIN itself, modelled inline); anything else is
appended as a property. -/
def buildF : Nat → List Char → List ContentLine → List ICalObject →
    List CLResult → BuildOut
  | 0, _, _, _, _ => .fuelOut
  | _ + 1, t, props, subs, [] => .ok (.mk t props subs) []
  | _ + 1, _, _, _, .err e :: _ => .err (.itemErr e)
  | _ + 1, _, _, _, .panic :: _ => .panic
  | _ + 1, _, _, _, .fuelOut :: _ => .fuelOut
  | fuel + 1, t, props, subs, .ok line :: rest =>
      if isEndName line.name then
        if line.value = t then .ok (.mk t props subs) rest
        else .err (.mismatchedEnd t)
      else if isBeginName line.name then
        match buildF fuel line.value [] [] rest with
        | .ok o r => buildF fuel t props (subs ++ [o]) r
        | .err e => .err e
        | .panic => .panic
        | .fuelOut => .fuelOut
      else buildF fuel t (props ++ [line]) subs rest

/-- `ICalObject::from_peekable` (src/ical_object.rs lines 19–62): the first
item must be present, non-error and named BEGIN (ASCII case-insensitive); its
value becomes the object type and the Body loop runs on the remaining items. -/
def ICalObject.fromPeekable (l : List CLResult) : BuildOut :=
  match l with
  | [] => .err .noLine
  | .err e :: _ => .err (.itemErr e)
  | .panic :: _ => .panic
  | .fuelOut :: _ => .fuelOut
  | .ok line :: rest =>
      if isBeginName line.name then buildF (rest.length + 1) line.value [] [] rest
      else .err .expectedBegin

/-- Result of `ICalObject::from_str` (the leftover items are dropped, as
`from_iterator` drops the peekable). -/
inductive TopResult where
  | ok (o : ICalObject)
  | err (e : BuildErr)
  | panic
  | fuelOut

/-- The `flat_map` stage of `ICalObject::from_bufread` (src/ical_object.rs
lines 80–85): `Result<Result<ContentLine>>` iterates over its `Ok` content, so
unfold errors are silently dropped and each unfolded line is parsed. -/
def pipelineItems (s : List Char) : List CLResult :=
  (unfoldAll ⟨s, none⟩).1.filterMap fun r =>
    match r with
    | .ok line => some (contentLineFromStr line)
    | .error _ => none

/-- `ICalObject::from_str` = unfold + parse + build.  The stream is evaluated
eagerly here; on a stream whose unfolding never panics this coincides with the
source's lazy pipeline. -/
def icalObjectFromStr (s : List Char) : TopResult :=
  if (unfoldAll ⟨s, none⟩).2 then .panic
  else
    match ICalObject.fromPeekable (pipelineItems s) with
    | .ok o _ => .ok o
    | .err e => .err e
    | .panic => .panic
    | .fuelOut => .fuelOut

/-! ## Basic list lemmas -/

theorem mem_concatL {α : Type} {x : α} :
    ∀ {L : List (List α)}, x ∈ concatL L ↔ ∃ l ∈ L, x ∈ l := by
  intro L
  induction L with
  | nil => simp [concatL]
  | cons y ys ih => simp [concatL, List.mem_append, ih]

theorem getLast?_concat' {α : Type} (l : List α) (a : α) :
    (l ++ [a]).getLast? = some a := by
  induction l with
  | nil => rfl
  | cons c cs ih =>
      rw [List.cons_append]
      cases h : cs ++ [a] with
      | nil => exact absurd h (by simp)
      | cons d ds => rw [List.getLast?_cons_cons, ← h, ih]

theorem dropLast_concat' {α : Type} (l : List α) (a : α) :
    (l ++ [a]).dropLast = l := by
  simp

theorem getLast?_mem' {α : Type} : ∀ {l : List α} {a : α},
    l.getLast? = some a → a ∈ l := by
  intro l
  induction l with
  | nil => intro a h; cases h
  | cons c cs ih =>
      intro a h
      cases cs with
      | nil => simp [List.getLast?] at h; simp [h]
      | cons d ds =>
          rw [List.getLast?_cons_cons] at h
          exact List.mem_cons_of_mem _ (ih h)

theorem wsHead_append {p q : List Char} (h : p ≠ []) :
    wsHead (p ++ q) = wsHead p := by
  cases p with
  | nil => exact absurd rfl h
  | cons c cs => rfl

/-! ## `readUntilCR` lemmas -/

theorem readUntilCR_no_cr : ∀ {l : List Char}, '\r' ∉ l → readUntilCR l = (l, []) := by
  intro l
  induction l with
  | nil => intro _; rfl
  | cons c cs ih =>
      intro h
      have hc : ¬(c = '\r') := fun hc => h (hc ▸ List.mem_cons_self c cs)
      simp only [readUntilCR, if_neg hc, ih (fun hm => h (List.mem_cons_of_mem _ hm))]

theorem readUntilCR_split : ∀ {p : List Char} (rest : List Char), '\r' ∉ p →
    readUntilCR (p ++ '\r' :: rest) = (p ++ ['\r'], rest) := by
  intro p
  induction p with
  | nil => intro rest _; simp [readUntilCR]
  | cons c cs ih =>
      intro rest h
      have hc : ¬(c = '\r') := fun hc => h (hc ▸ List.mem_cons_self c cs)
      simp only [List.cons_append, readUntilCR, if_neg hc, List.append_eq,
        ih rest (fun hm => h (List.mem_cons_of_mem _ hm))]

/-! ## Claim C10 -/

/-- C10: parsing the string "X;P=a,b:v" with `ContentLine::from_str` succeeds
and yields exactly the record with name "X", one `Param` named "P" whose value
list is ["a","b"] in that order, and value "v". -/
theorem c10_param_parse :
    contentLineFromStr (cstr "X;P=a,b:v")
      = .ok ⟨cstr "X", [⟨cstr "P", [cstr "a", cstr "b"]⟩], cstr "v"⟩ := rfl

/-! ## Claim C3 -/

/-- C3: evaluation of the code at the failing input.  The `Display` impl
writes a parameter's values back to back with no comma separator, so
formatting the valid record {name "X", param "P" = ["a","b"], value "v"}
yields "X;P=ab:v", which its own parser reads back as the single value "ab":
`parse(format(L)) ≠ L`, contradicting the claimed round trip (and the
repository's own round-trip test assertion in src/content_line.rs). -/
theorem c3_roundtrip_failure :
    contentLineToString ⟨cstr "X", [⟨cstr "P", [cstr "a", cstr "b"]⟩], cstr "v"⟩
      = cstr "X;P=ab:v"
    ∧ contentLineFromStr
        (contentLineToString ⟨cstr "X", [⟨cstr "P", [cstr "a", cstr "b"]⟩], cstr "v"⟩)
      = .ok ⟨cstr "X", [⟨cstr "P", [cstr "ab"]⟩], cstr "v"⟩
    ∧ (⟨cstr "X", [⟨cstr "P", [cstr "ab"]⟩], cstr "v"⟩ : ContentLine)
      ≠ ⟨cstr "X", [⟨cstr "P", [cstr "a", cstr "b"]⟩], cstr "v"⟩ :=
  ⟨rfl, rfl, by decide⟩

/-! ## Claim C2 -/

/-- C2 counterexample: the full pipeline on "BEGIN:A\r\nEND:B\r\n" does not
fail at all: the unfolder discards the final logical line "END:B" at clean
EOF, and the builder completes at end of stream, so `from_str` returns the
object {object_type "A", no properties, no sub-objects}. -/
theorem c2_counterexample :
    icalObjectFromStr (cstr "BEGIN:A\r\nEND:B\r\n")
      = .ok (.mk (cstr "A") [] []) := rfl

/-- C2 amended: parsing "BEGIN:A\r\nEND:B\r\n" through the full pipeline
succeeds with the empty object of type "A" (the trailing "END:B" never
reaches the builder); the mismatched END is only detected when a further
CRLF-terminated line follows, e.g. "BEGIN:A\r\nEND:B\r\nX:y\r\n" fails with
the mismatched-END structural error. -/
theorem c2_amended :
    icalObjectFromStr (cstr "BEGIN:A\r\nEND:B\r\n")
      = .ok (.mk (cstr "A") [] [])
    ∧ icalObjectFromStr (cstr "BEGIN:A\r\nEND:B\r\nX:y\r\n")
      = .err (.mismatchedEnd (cstr "A")) :=
  ⟨rfl, rfl⟩

/-! ## Claim C6 -/

/-- C6: at clean EOF the buffered final logical line is discarded, not
flushed.  With the final physical line already read into `last_line` (its
CRLF consumed) and the stream exhausted, the `next()` call that would deliver
it returns `None`; end to end, unfolding "A:1\r\nB:2\r\n" yields only
"A:1" — the properly terminated final line "B:2" is never yielded. -/
theorem c6_eof_discards_buffered :
    (∀ buf : List Char, unfoldNext ⟨[], some buf⟩ = (.eos, ⟨[], none⟩))
    ∧ unfoldAll ⟨cstr "A:1\r\nB:2\r\n", none⟩ = ([.ok (cstr "A:1")], false) :=
  ⟨fun _ => rfl, rfl⟩

/-! ## Claim C7 -/

/-- C7 counterexample: the stream "\r\nA:B\r\n" contains a logical line that
decodes to the empty string (its first), yet the unfolder does not fail with
the empty-line error: it yields the empty line as `Ok("")` (and then drops
"A:B" at EOF). -/
theorem c7_counterexample :
    unfoldAll ⟨cstr "\r\nA:B\r\n", none⟩ = ([.ok []], false) := rfl

/-- C7 amended: the empty-line check lives only in the continuation loop: an
empty physical line read while a previous logical line is buffered fails with
the empty-line error, but an empty FIRST logical line is not rejected — it is
yielded as `Ok("")`. -/
theorem c7_amended :
    (∀ (buf rest : List Char),
        unfoldNext ⟨'\r' :: '\n' :: rest, some buf⟩ = (.err .emptyLine, ⟨rest, none⟩))
    ∧ (unfoldNext ⟨cstr "\r\nX:y\r\n", none⟩).1 = .ok [] :=
  ⟨fun _ _ => rfl, rfl⟩

/-! ## Claim C8 -/

/-- C8 counterexample: the stream "A\nB\r\nC:D\r\n" contains the physical
line "A\n" (ending in LF with no preceding CR), yet the unfolder raises no
malformed-termination error: the bare LF is swallowed into the logical line,
which is yielded as `Ok("A\nB")`. -/
theorem c8_counterexample :
    unfoldAll ⟨cstr "A\nB\r\nC:D\r\n", none⟩ = ([.ok (cstr "A\nB")], false) := rfl

/-- C8 amended: the malformed-termination error is raised exactly when a read
reaches end of stream without a terminating CR — i.e. when the remaining
stream content (after the last consumed CRLF) is nonempty and CR-free; an LF
without a preceding CR elsewhere in the stream is not detected.  (For a fresh
state the first-line whitespace `assert!` must not fire first.) -/
theorem c8_amended :
    ∀ (rem : List Char) (last : Option (List Char)), rem ≠ [] → '\r' ∉ rem →
      (last = none → wsHead rem = false) →
      (unfoldNext ⟨rem, last⟩).1 = .err .malformedTermination := by
  intro rem last hne hcr hws
  have hru : readUntilCR rem = (rem, []) := readUntilCR_no_cr hcr
  have hlast : ¬(rem.getLast? = some '\r') := fun h => hcr (getLast?_mem' h)
  cases last with
  | some buf =>
      show (unfoldLoopF (rem.length + 1) buf rem).1 = _
      simp only [unfoldLoopF, hru, if_neg hne, if_neg hlast]
  | none =>
      show (unfoldNext ⟨rem, none⟩).1 = _
      simp only [unfoldNext, hru, if_neg hne, if_neg hlast, hws rfl,
        Bool.false_eq_true, if_false]

/-- C8 witness: instance of `c8_amended` at the concrete stream "A". -/
theorem c8_witness :
    (['A'] ≠ ([] : List Char))
    ∧ (unfoldNext ⟨['A'], none⟩).1 = .err .malformedTermination :=
  ⟨by decide, c8_amended ['A'] none (by decide) (by decide) (fun _ => rfl)⟩

/-! ## Claim C5 -/

/-- C5 counterexample: `Unfold::next` does not return a typed error on every
malformed input — on a stream whose first physical line begins with SPACE the
source's `assert!(buf[0] != b' ')` fires: a panic, not `Some(Err(..))`. -/
theorem c5_counterexample :
    (unfoldNext ⟨' ' :: cstr "X:y\r\nZ:1\r\n", none⟩).1 = .panic := rfl

/-- C5 amended: the unfolder and the content-line parser return typed errors
for the failures they detect (e.g. missing final CR, missing name delimiter),
but they panic on three malformed-input classes: a first physical line
beginning with SPACE/TAB (`assert!`), a CR followed by a byte other than LF
(`assert!`), and a content line ending immediately after a quoted parameter
value or immediately after `=`/`,` (out-of-bounds index). -/
theorem c5_amended :
    (∀ (c : Char) (s : List Char), (c = ' ' ∨ c = '\t') →
        (unfoldNext ⟨c :: s, none⟩).1 = .panic)
    ∧ (∀ (p : List Char) (c : Char) (s : List Char), p ≠ [] → '\r' ∉ p →
        wsHead p = false → ¬(c = '\n') →
        (unfoldNext ⟨p ++ '\r' :: c :: s, none⟩).1 = .panic)
    ∧ contentLineFromStr (cstr "X;P=\"a\"") = .panic
    ∧ contentLineFromStr (cstr "X;P=") = .panic
    ∧ (unfoldNext ⟨cstr "A", none⟩).1 = .err .malformedTermination
    ∧ contentLineFromStr (cstr "AB") = .err .noNameDelim := by
  refine ⟨?_, ?_, rfl, rfl, rfl, rfl⟩
  · intro c s hc
    rcases hc with h | h <;> subst h <;>
      simp [unfoldNext, readUntilCR, wsHead]
  · intro p c s hne hcr hws hcn
    simp only [unfoldNext, readUntilCR_split _ hcr]
    have h1 : ¬(p ++ ['\r'] = []) := by simp
    rw [if_neg h1, wsHead_append hne, hws]
    simp only [Bool.false_eq_true, if_false, getLast?_concat', if_neg hcn,
      if_true]

/-- C5 witness: instances of `c5_amended` at concrete inputs. -/
theorem c5_witness :
    ((' ' = ' ' ∨ ' ' = '\t') ∧ (unfoldNext ⟨[' '], none⟩).1 = .panic)
    ∧ (¬('X' = '\n') ∧ (unfoldNext ⟨['A'] ++ '\r' :: 'X' :: [], none⟩).1 = .panic) :=
  ⟨⟨Or.inl rfl, c5_amended.1 ' ' [] (Or.inl rfl)⟩,
   ⟨by decide, c5_amended.2.1 ['A'] 'X' [] (by decide) (by decide) rfl (by decide)⟩⟩

/-! ## Claim C1 -/

/-- C1 counterexample: with the item stream exhausted while in the Body state
(a lone `BEGIN:A` with no matching END), `from_peekable` does not return a
structural error: the `while let` loop simply ends at `None` and the
partially built object is returned as `Ok`. -/
theorem c1_counterexample :
    ICalObject.fromPeekable [.ok ⟨cstr "BEGIN", [], cstr "A"⟩]
      = .ok (.mk (cstr "A") [] []) [] := rfl

/-- Consuming a run of ordinary property items (names neither BEGIN nor END,
ASCII case-insensitively) appends them in order to the property accumulator,
spending one fuel per item. -/
theorem buildF_props :
    ∀ (props : List ContentLine) (fuel : Nat) (t : List Char)
      (P : List ContentLine) (S : List ICalObject) (suffix : List CLResult),
      suffix.length + props.length < fuel →
      (∀ p ∈ props, isEndName p.name = false ∧ isBeginName p.name = false) →
      buildF fuel t P S (props.map .ok ++ suffix)
        = buildF (fuel - props.length) t (P ++ props) S suffix := by
  intro props
  induction props with
  | nil => intro fuel t P S suffix _ _; simp
  | cons p ps ih =>
      intro fuel t P S suffix hfuel hclean
      obtain ⟨f, rfl⟩ : ∃ f, fuel = f + 1 := ⟨fuel - 1, by omega⟩
      have hp := hclean p (List.mem_cons_self _ _)
      show buildF (f + 1) t P S (.ok p :: (ps.map .ok ++ suffix)) = _
      simp only [buildF, hp.1, hp.2, Bool.false_eq_true, if_false]
      rw [ih f t (P ++ [p]) S suffix (by simp at hfuel ⊢; omega)
          (fun q hq => hclean q (List.mem_cons_of_mem _ hq))]
      have h1 : f - ps.length = f + 1 - (p :: ps).length := by
        simp only [List.length_cons]; omega
      have h2 : (P ++ [p]) ++ ps = P ++ p :: ps := by simp
      rw [h1, h2]

/-- C1 amended: the builder completes a nesting level when it consumes an END
marker whose value equals that level's `object_type` (leaving later items
unconsumed), and fails on an END whose value differs; but if the item
sequence is exhausted while in the Body state, it returns the partially built
object as a success — not a structural error. -/
theorem c1_amended :
    ∀ (t : List Char) (props : List ContentLine) (rest : List CLResult)
      (t2 : List Char),
      (∀ p ∈ props, isEndName p.name = false ∧ isBeginName p.name = false) →
      (ICalObject.fromPeekable
          (.ok ⟨cstr "BEGIN", [], t⟩ ::
            (props.map .ok ++ (.ok ⟨cstr "END", [], t⟩ :: rest)))
        = .ok (.mk t props []) rest)
      ∧ (¬(t2 = t) →
          ICalObject.fromPeekable
              (.ok ⟨cstr "BEGIN", [], t⟩ ::
                (props.map .ok ++ (.ok ⟨cstr "END", [], t2⟩ :: rest)))
            = .err (.mismatchedEnd t))
      ∧ ICalObject.fromPeekable (.ok ⟨cstr "BEGIN", [], t⟩ :: props.map .ok)
        = .ok (.mk t props []) [] := by
  intro t props rest t2 hclean
  refine ⟨?_, ?_, ?_⟩
  · simp only [ICalObject.fromPeekable]
    rw [if_pos (show isBeginName (cstr "BEGIN") = true by decide)]
    rw [buildF_props props _ t [] [] _ (by simp; omega) hclean]
    have h1 : (props.map CLResult.ok
          ++ (CLResult.ok ⟨cstr "END", [], t⟩ :: rest)).length + 1 - props.length
        = rest.length + 1 + 1 := by simp; omega
    rw [h1]
    simp only [buildF]
    rw [if_pos (show isEndName (cstr "END") = true by decide)]
    simp
  · intro hne
    simp only [ICalObject.fromPeekable]
    rw [if_pos (show isBeginName (cstr "BEGIN") = true by decide)]
    rw [buildF_props props _ t [] [] _ (by simp; omega) hclean]
    have h1 : (props.map CLResult.ok
          ++ (CLResult.ok ⟨cstr "END", [], t2⟩ :: rest)).length + 1 - props.length
        = rest.length + 1 + 1 := by simp; omega
    rw [h1]
    simp only [buildF]
    rw [if_pos (show isEndName (cstr "END") = true by decide), if_neg hne]
  · simp only [ICalObject.fromPeekable]
    rw [if_pos (show isBeginName (cstr "BEGIN") = true by decide)]
    rw [show List.map CLResult.ok props
          = List.map CLResult.ok props ++ ([] : List CLResult)
        from (List.append_nil _).symm]
    rw [buildF_props props _ t [] [] [] (by simp) hclean]
    have h1 : (List.map CLResult.ok props ++ ([] : List CLResult)).length + 1
        - props.length = 0 + 1 := by simp
    rw [h1]
    simp [buildF]

/-- C1 witness: instance of `c1_amended` at a concrete depth-one stream. -/
theorem c1_witness :
    (∀ p ∈ [(⟨cstr "X", [], cstr "1"⟩ : ContentLine)],
        isEndName p.name = false ∧ isBeginName p.name = false)
    ∧ ICalObject.fromPeekable
        (.ok ⟨cstr "BEGIN", [], cstr "V"⟩ ::
          ([(⟨cstr "X", [], cstr "1"⟩ : ContentLine)].map .ok
            ++ (.ok ⟨cstr "END", [], cstr "V"⟩ :: [])))
      = .ok (.mk (cstr "V") [⟨cstr "X", [], cstr "1"⟩] []) [] :=
  ⟨by decide,
   (c1_amended (cstr "V") [⟨cstr "X", [], cstr "1"⟩] [] (cstr "W") (by decide)).1⟩

/-! ## Claim C9 -/

theorem lenUtf8_space : lenUtf8 ' ' = 1 := rfl

/-- The source's fold loop coincides with the loop described by the spec:
the only textual difference is the reset value `' '.len_utf8() + c.len_utf8()`
versus `1 + c.len_utf8()`, and `' '.len_utf8() = 1`. -/
theorem foldGo_eq_spec : ∀ (w : Nat) (cs : List Char) (cur : Nat),
    foldGo w cs cur = foldSpecGo w cs cur := by
  intro w cs
  induction cs with
  | nil => intro cur; rfl
  | cons c cs ih =>
      intro cur
      by_cases h : cur + lenUtf8 c > w
      · simp only [foldGo, foldSpecGo, if_pos h, lenUtf8_space, ih]
      · simp only [foldGo, foldSpecGo, if_neg h, ih]

theorem stripFoldBreaks_cons_ne (c : Char) (X : List Char) (h : ¬(c = '\r')) :
    stripFoldBreaks (c :: X) = c :: stripFoldBreaks X := by
  rw [stripFoldBreaks.eq_def]
  split
  · next rest heq =>
      injection heq with h1 _
      exact absurd h1 h
  · next c2 rest2 heq =>
      injection heq with h1 h2
      rw [h1, h2]
  · next x heq => exact absurd heq (List.cons_ne_nil _ _)

/-- Erasing the inserted CR LF SPACE triples recovers the original line,
provided the line itself contains no CR/LF: no character is lost, reordered
or split by folding. -/
theorem stripFoldBreaks_foldGo : ∀ (w : Nat) (cs : List Char) (cur : Nat),
    '\r' ∉ cs → '\n' ∉ cs → stripFoldBreaks (foldGo w cs cur) = cs := by
  intro w cs
  induction cs with
  | nil => intro cur _ _; rfl
  | cons c cs ih =>
      intro cur hr hn
      have hcr : ¬(c = '\r') := fun hq => hr (hq ▸ List.mem_cons_self c cs)
      have hr2 : '\r' ∉ cs := fun m => hr (List.mem_cons_of_mem _ m)
      have hn2 : '\n' ∉ cs := fun m => hn (List.mem_cons_of_mem _ m)
      by_cases hb : cur + lenUtf8 c > w
      · simp only [foldGo, if_pos hb]
        have hstep :
            stripFoldBreaks
                ('\r' :: '\n' :: ' ' :: (c :: foldGo w cs (lenUtf8 ' ' + lenUtf8 c)))
              = stripFoldBreaks (c :: foldGo w cs (lenUtf8 ' ' + lenUtf8 c)) := rfl
        rw [hstep, stripFoldBreaks_cons_ne c _ hcr, ih _ hr2 hn2]
      · simp only [foldGo, if_neg hb]
        rw [stripFoldBreaks_cons_ne c _ hcr, ih _ hr2 hn2]

/-- C9: for every logical line and every `max_width`, the fold walks the line
one Unicode scalar at a time and inserts CRLF plus one SPACE before exactly
those characters whose addition would make the current physical segment
exceed `max_width` encoded bytes, resetting the segment counter to one plus
that character's UTF-8 length (the loop equals the spec's description of it
verbatim); the default `max_width` is 75; and, as folding operates at scalar
granularity, erasing the inserted CR LF SPACE triples recovers the line
exactly — no multi-byte character is ever split. -/
theorem c9_fold_spec :
    ∀ (line : List Char) (w : Nat),
      foldWithMaxLength line w = foldSpecModel line w
      ∧ fold line = foldWithMaxLength line 75
      ∧ ('\r' ∉ line → '\n' ∉ line →
          stripFoldBreaks (foldWithMaxLength line w) = line) :=
  fun line w =>
    ⟨foldGo_eq_spec w line 0, rfl,
     fun hr hn => stripFoldBreaks_foldGo w line 0 hr hn⟩

/-- C9 witness: instance of `c9_fold_spec` at a line that actually folds. -/
theorem c9_witness :
    ('\r' ∉ cstr "abcd" ∧ '\n' ∉ cstr "abcd")
    ∧ stripFoldBreaks (foldWithMaxLength (cstr "abcd") 2) = cstr "abcd"
    ∧ foldWithMaxLength (cstr "abcd") 2 = foldSpecModel (cstr "abcd") 2 :=
  ⟨⟨by decide, by decide⟩,
   (c9_fold_spec (cstr "abcd") 2).2.2 (by decide) (by decide),
   (c9_fold_spec (cstr "abcd") 2).1⟩

/-! ## Claim C4: fold segmentation lemmas -/

theorem foldSegs_ne_nil : ∀ (m : Nat) (cs : List Char) (cur : Nat),
    foldSegs m cs cur ≠ [] := by
  intro m cs cur
  cases cs with
  | nil => simp [foldSegs]
  | cons c cs =>
      simp only [foldSegs]
      by_cases h : cur + lenUtf8 c > m
      · rw [if_pos h]
        rcases hh : foldSegs m cs (lenUtf8 ' ' + lenUtf8 c) with _ | ⟨s, ss⟩ <;> simp
      · rw [if_neg h]
        rcases hh : foldSegs m cs (cur + lenUtf8 c) with _ | ⟨s, ss⟩ <;> simp

/-- The fold output is its physical segments joined with CRLF. -/
theorem foldGo_eq_interCRLF : ∀ (m : Nat) (cs : List Char) (cur : Nat),
    foldGo m cs cur = interCRLF (foldSegs m cs cur) := by
  intro m cs
  induction cs with
  | nil => intro cur; rfl
  | cons c cs ih =>
      intro cur
      by_cases h : cur + lenUtf8 c > m
      · simp only [foldGo, foldSegs, if_pos h]
        rcases hh : foldSegs m cs (lenUtf8 ' ' + lenUtf8 c) with _ | ⟨s, ss⟩
        · exact absurd hh (foldSegs_ne_nil _ _ _)
        · rw [ih, hh]
          cases ss with
          | nil => simp [interCRLF]
          | cons y ys => simp [interCRLF]
      · simp only [foldGo, foldSegs, if_neg h]
        rcases hh : foldSegs m cs (cur + lenUtf8 c) with _ | ⟨s, ss⟩
        · exact absurd hh (foldSegs_ne_nil _ _ _)
        · rw [ih, hh]
          cases ss with
          | nil => simp [interCRLF]
          | cons y ys => simp [interCRLF]

/-- Rejoining the segments — head kept whole, each continuation with its
whitespace marker stripped — recovers the folded text. -/
theorem foldSegs_reassemble : ∀ (m : Nat) (cs : List Char) (cur : Nat)
    (s : List Char) (ss : List (List Char)),
    foldSegs m cs cur = s :: ss → s ++ concatL (ss.map List.tail) = cs := by
  intro m cs
  induction cs with
  | nil =>
      intro cur s ss h
      simp only [foldSegs] at h
      injection h with h1 h2
      rw [← h1, ← h2]
      rfl
  | cons c cs ih =>
      intro cur s ss h
      by_cases hb : cur + lenUtf8 c > m
      · simp only [foldSegs, if_pos hb] at h
        rcases hh : foldSegs m cs (lenUtf8 ' ' + lenUtf8 c) with _ | ⟨s2, ss2⟩
        · exact absurd hh (foldSegs_ne_nil _ _ _)
        · rw [hh] at h
          injection h with h1 h2
          rw [← h1, ← h2]
          have hr := ih _ s2 ss2 hh
          simp only [List.map_cons, concatL, List.tail_cons, List.nil_append,
            List.cons_append]
          exact congrArg (c :: ·) hr
      · simp only [foldSegs, if_neg hb] at h
        rcases hh : foldSegs m cs (cur + lenUtf8 c) with _ | ⟨s2, ss2⟩
        · exact absurd hh (foldSegs_ne_nil _ _ _)
        · rw [hh] at h
          injection h with h1 h2
          rw [← h1, ← h2]
          have hr := ih _ s2 ss2 hh
          simpa using congrArg (c :: ·) hr

/-- Every continuation segment is nonempty and starts with the SPACE marker. -/
theorem foldSegs_tail_ws : ∀ (m : Nat) (cs : List Char) (cur : Nat)
    (x : List Char), x ∈ (foldSegs m cs cur).tail → x ≠ [] ∧ wsHead x = true := by
  intro m cs
  induction cs with
  | nil => intro cur x hx; simp [foldSegs] at hx
  | cons c cs ih =>
      intro cur x hx
      by_cases hb : cur + lenUtf8 c > m
      · simp only [foldSegs, if_pos hb] at hx
        rcases hh : foldSegs m cs (lenUtf8 ' ' + lenUtf8 c) with _ | ⟨s2, ss2⟩
        · exact absurd hh (foldSegs_ne_nil _ _ _)
        · rw [hh] at hx
          simp only [List.tail_cons] at hx
          cases hx with
          | head => exact ⟨by simp, by simp [wsHead]⟩
          | tail _ hx2 => exact ih _ x (by rw [hh]; exact hx2)
      · simp only [foldSegs, if_neg hb] at hx
        rcases hh : foldSegs m cs (cur + lenUtf8 c) with _ | ⟨s2, ss2⟩
        · exact absurd hh (foldSegs_ne_nil _ _ _)
        · rw [hh] at hx
          simp only [List.tail_cons] at hx
          exact ih _ x (by rw [hh]; exact hx)

/-- Every character of every segment is the SPACE marker or a character of
the folded text. -/
theorem foldSegs_mem_chars : ∀ (m : Nat) (cs : List Char) (cur : Nat)
    (x : List Char) (a : Char),
    x ∈ foldSegs m cs cur → a ∈ x → a = ' ' ∨ a ∈ cs := by
  intro m cs
  induction cs with
  | nil =>
      intro cur x a hx ha
      simp [foldSegs] at hx
      rw [hx] at ha
      cases ha
  | cons c cs ih =>
      intro cur x a hx ha
      by_cases hb : cur + lenUtf8 c > m
      · simp only [foldSegs, if_pos hb] at hx
        rcases hh : foldSegs m cs (lenUtf8 ' ' + lenUtf8 c) with _ | ⟨s2, ss2⟩
        · exact absurd hh (foldSegs_ne_nil _ _ _)
        · rw [hh] at hx
          cases hx with
          | head => cases ha
          | tail _ hx2 =>
              cases hx2 with
              | head =>
                  cases ha with
                  | head => exact Or.inl rfl
                  | tail _ ha2 =>
                      cases ha2 with
                      | head => exact Or.inr (List.mem_cons_self _ _)
                      | tail _ ha3 =>
                          rcases ih _ s2 a (by rw [hh]; exact List.mem_cons_self _ _)
                              ha3 with h | h
                          · exact Or.inl h
                          · exact Or.inr (List.mem_cons_of_mem _ h)
              | tail _ hx3 =>
                  rcases ih _ x a (by rw [hh]; exact List.mem_cons_of_mem _ hx3)
                      ha with h | h
                  · exact Or.inl h
                  · exact Or.inr (List.mem_cons_of_mem _ h)
      · simp only [foldSegs, if_neg hb] at hx
        rcases hh : foldSegs m cs (cur + lenUtf8 c) with _ | ⟨s2, ss2⟩
        · exact absurd hh (foldSegs_ne_nil _ _ _)
        · rw [hh] at hx
          cases hx with
          | head =>
              cases ha with
              | head => exact Or.inr (List.mem_cons_self _ _)
              | tail _ ha2 =>
                  rcases ih _ s2 a (by rw [hh]; exact List.mem_cons_self _ _)
                      ha2 with h | h
                  · exact Or.inl h
                  · exact Or.inr (List.mem_cons_of_mem _ h)
          | tail _ hx2 =>
              rcases ih _ x a (by rw [hh]; exact List.mem_cons_of_mem _ hx2)
                  ha with h | h
              · exact Or.inl h
              · exact Or.inr (List.mem_cons_of_mem _ h)

theorem lenUtf8_le_four (c : Char) : lenUtf8 c ≤ 4 := by
  unfold lenUtf8
  split_ifs <;> omega

/-- At width 75 the head segment of a nonempty line starts with the line's
first character (the first character never triggers a break). -/
theorem foldSegs75_head : ∀ (c : Char) (cs : List Char),
    ∃ s ss, foldSegs 75 (c :: cs) 0 = (c :: s) :: ss := by
  intro c cs
  have h : ¬(0 + lenUtf8 c > 75) := by have := lenUtf8_le_four c; omega
  simp only [foldSegs, if_neg h]
  rcases hh : foldSegs 75 cs (0 + lenUtf8 c) with _ | ⟨s, ss⟩
  · exact absurd hh (foldSegs_ne_nil _ _ _)
  · exact ⟨s, ss, rfl⟩

/-! ## Claim C4: stream lemmas -/

theorem joinCRLF_append : ∀ (a b : List (List Char)),
    joinCRLF (a ++ b) = joinCRLF a ++ joinCRLF b := by
  intro a b
  induction a with
  | nil => rfl
  | cons p ps ih => simp [joinCRLF, ih]

theorem interCRLF_append_crlf : ∀ (xs : List (List Char)), xs ≠ [] →
    interCRLF xs ++ ['\r', '\n'] = joinCRLF xs := by
  intro xs
  induction xs with
  | nil => intro h; exact absurd rfl h
  | cons x ys ih =>
      intro _
      cases ys with
      | nil => rfl
      | cons y ys2 =>
          have hr := ih (List.cons_ne_nil _ _)
          simp only [interCRLF, joinCRLF, List.append_assoc, List.cons_append] at hr ⊢
          rw [hr]

theorem spanWS_append : ∀ (ps : List (List Char)),
    (spanWS ps).1 ++ (spanWS ps).2 = ps := by
  intro ps
  induction ps with
  | nil => rfl
  | cons p ps ih =>
      by_cases h : wsHead p = true
      · simp [spanWS, h, ih]
      · simp [spanWS, h]

theorem chop_span_nil : ∀ (ps : List (List Char)) (buf : List Char)
    (run : List (List Char)), spanWS ps = (run, []) →
    chopLogical buf ps = [] := by
  intro ps
  induction ps with
  | nil => intro buf run _; rfl
  | cons p ps ih =>
      intro buf run hsp
      by_cases h : wsHead p = true
      · simp only [spanWS, if_pos h] at hsp
        rcases hsp2 : spanWS ps with ⟨run2, rest2⟩
        rw [hsp2] at hsp
        injection hsp with e1 e2
        have e2b : rest2 = [] := e2
        simp only [chopLogical, if_pos h]
        exact ih (buf ++ p.tail) run2 (by rw [hsp2, e2b])
      · simp only [spanWS, if_neg h] at hsp
        injection hsp with e1 e2
        exact absurd e2 (List.cons_ne_nil _ _)

theorem chop_span_cons : ∀ (ps : List (List Char)) (buf : List Char)
    (run : List (List Char)) (q : List Char) (qs : List (List Char)),
    spanWS ps = (run, q :: qs) →
    chopLogical buf ps
      = .ok (buf ++ concatL (run.map List.tail)) :: chopLogical q qs := by
  intro ps
  induction ps with
  | nil =>
      intro buf run q qs hsp
      injection hsp with e1 e2
      exact absurd e2 (by simp)
  | cons p ps ih =>
      intro buf run q qs hsp
      by_cases h : wsHead p = true
      · simp only [spanWS, if_pos h] at hsp
        rcases hsp2 : spanWS ps with ⟨run2, rest2⟩
        rw [hsp2] at hsp
        injection hsp with e1 e2
        have e1b : p :: run2 = run := e1
        have e2b : rest2 = q :: qs := e2
        simp only [chopLogical, if_pos h]
        rw [ih (buf ++ p.tail) run2 q qs (by rw [hsp2, e2b])]
        rw [← e1b]
        simp [concatL, List.append_assoc]
      · simp only [spanWS, if_neg h] at hsp
        injection hsp with e1 e2
        injection e2 with e3 e4
        simp only [chopLogical, if_neg h]
        rw [← e1, ← e3, ← e4]
        simp [concatL]

/-- Processing one properly terminated CR-free physical line inside the
unfolder's loop: a whitespace-led line continues the buffer, any other
(nonempty) line flushes it. -/
theorem unfoldLoopF_step : ∀ (f : Nat) (buf p rest : List Char),
    p ≠ [] → '\r' ∉ p →
    unfoldLoopF (f + 1) buf (p ++ '\r' :: '\n' :: rest)
      = if wsHead p then unfoldLoopF f (buf ++ p.tail) rest
        else (.ok buf, ⟨rest, some p⟩) := by
  intro f buf p rest hne hcr
  simp only [unfoldLoopF, readUntilCR_split _ hcr]
  rw [if_neg (show ¬(p ++ ['\r'] = []) by simp)]
  rw [if_pos (getLast?_concat' p '\r')]
  simp only [dropLast_concat', if_true]
  rw [if_neg hne]

theorem unfoldLoopF_join_nil : ∀ (plines : List (List Char)) (buf : List Char)
    (fuel : Nat) (run : List (List Char)),
    (joinCRLF plines).length < fuel →
    (∀ p ∈ plines, p ≠ [] ∧ '\r' ∉ p ∧ '\n' ∉ p) →
    spanWS plines = (run, []) →
    unfoldLoopF fuel buf (joinCRLF plines) = (.eos, ⟨[], none⟩) := by
  intro plines
  induction plines with
  | nil =>
      intro buf fuel run hfuel _ _
      obtain ⟨f, rfl⟩ : ∃ f, fuel = f + 1 := ⟨fuel - 1, by omega⟩
      rfl
  | cons p ps ih =>
      intro buf fuel run hfuel hgood hsp
      have hp := hgood p (List.mem_cons_self _ _)
      obtain ⟨f, rfl⟩ : ∃ f, fuel = f + 1 := ⟨fuel - 1, by omega⟩
      show unfoldLoopF (f + 1) buf (p ++ '\r' :: '\n' :: joinCRLF ps) = _
      rw [unfoldLoopF_step f buf p _ hp.1 hp.2.1]
      by_cases h : wsHead p = true
      · rw [if_pos h]
        simp only [spanWS, if_pos h] at hsp
        rcases hsp2 : spanWS ps with ⟨run2, rest2⟩
        rw [hsp2] at hsp
        injection hsp with e1 e2
        have e2b : rest2 = [] := e2
        have hlen : (joinCRLF ps).length < f := by
          have : (joinCRLF (p :: ps)).length
              = p.length + 2 + (joinCRLF ps).length := by
            simp [joinCRLF, List.length_append]; omega
          omega
        exact ih (buf ++ p.tail) f run2 hlen
          (fun x hx => hgood x (List.mem_cons_of_mem _ hx)) (by rw [hsp2, e2b])
      · simp only [spanWS, if_neg h] at hsp
        injection hsp with e1 e2
        exact absurd e2 (List.cons_ne_nil _ _)

theorem unfoldLoopF_join_cons : ∀ (plines : List (List Char)) (buf : List Char)
    (fuel : Nat) (run : List (List Char)) (q : List Char) (qs : List (List Char)),
    (joinCRLF plines).length < fuel →
    (∀ p ∈ plines, p ≠ [] ∧ '\r' ∉ p ∧ '\n' ∉ p) →
    spanWS plines = (run, q :: qs) →
    unfoldLoopF fuel buf (joinCRLF plines)
      = (.ok (buf ++ concatL (run.map List.tail)), ⟨joinCRLF qs, some q⟩) := by
  intro plines
  induction plines with
  | nil =>
      intro buf fuel run q qs _ _ hsp
      injection hsp with e1 e2
      exact absurd e2 (by simp)
  | cons p ps ih =>
      intro buf fuel run q qs hfuel hgood hsp
      have hp := hgood p (List.mem_cons_self _ _)
      obtain ⟨f, rfl⟩ : ∃ f, fuel = f + 1 := ⟨fuel - 1, by omega⟩
      show unfoldLoopF (f + 1) buf (p ++ '\r' :: '\n' :: joinCRLF ps) = _
      rw [unfoldLoopF_step f buf p _ hp.1 hp.2.1]
      by_cases h : wsHead p = true
      · rw [if_pos h]
        simp only [spanWS, if_pos h] at hsp
        rcases hsp2 : spanWS ps with ⟨run2, rest2⟩
        rw [hsp2] at hsp
        injection hsp with e1 e2
        have e1b : p :: run2 = run := e1
        have e2b : rest2 = q :: qs := e2
        have hlen : (joinCRLF ps).length < f := by
          have : (joinCRLF (p :: ps)).length
              = p.length + 2 + (joinCRLF ps).length := by
            simp [joinCRLF, List.length_append]; omega
          omega
        rw [ih (buf ++ p.tail) f run2 q qs hlen
          (fun x hx => hgood x (List.mem_cons_of_mem _ hx)) (by rw [hsp2, e2b])]
        rw [← e1b]
        simp [concatL, List.append_assoc]
      · rw [if_neg h]
        simp only [spanWS, if_neg h] at hsp
        injection hsp with e1 e2
        injection e2 with e3 e4
        rw [← e1, ← e3, ← e4]
        simp [concatL]

/-- Driving the unfolder over a stream of good physical lines with a buffered
logical line yields exactly the chopped logical lines (strong induction on
the number of physical lines). -/
theorem unfoldAllF_join_some : ∀ (n : Nat) (plines : List (List Char))
    (buf : List Char) (fuel : Nat),
    plines.length ≤ n → (joinCRLF plines).length < fuel →
    (∀ p ∈ plines, p ≠ [] ∧ '\r' ∉ p ∧ '\n' ∉ p) →
    unfoldAllF fuel ⟨joinCRLF plines, some buf⟩ = (chopLogical buf plines, false) := by
  intro n
  induction n with
  | zero =>
      intro plines buf fuel hlen hfuel _
      have h0 : plines = [] := List.length_eq_zero.mp (Nat.le_zero.mp hlen)
      subst h0
      obtain ⟨f, rfl⟩ : ∃ f, fuel = f + 1 := ⟨fuel - 1, by omega⟩
      rfl
  | succ n ih =>
      intro plines buf fuel hlen hfuel hgood
      obtain ⟨f, rfl⟩ : ∃ f, fuel = f + 1 := ⟨fuel - 1, by omega⟩
      rcases hsp : spanWS plines with ⟨run, rest⟩
      cases rest with
      | nil =>
          have hnext : unfoldNext ⟨joinCRLF plines, some buf⟩ = (.eos, ⟨[], none⟩) := by
            show unfoldLoopF ((joinCRLF plines).length + 1) buf (joinCRLF plines) = _
            exact unfoldLoopF_join_nil plines buf _ run (Nat.lt_succ_self _) hgood hsp
          simp only [unfoldAllF, hnext]
          rw [chop_span_nil plines buf run hsp]
      | cons q qs =>
          have hnext : unfoldNext ⟨joinCRLF plines, some buf⟩
              = (.ok (buf ++ concatL (run.map List.tail)), ⟨joinCRLF qs, some q⟩) := by
            show unfoldLoopF ((joinCRLF plines).length + 1) buf (joinCRLF plines) = _
            exact unfoldLoopF_join_cons plines buf _ run q qs (Nat.lt_succ_self _)
              hgood hsp
          simp only [unfoldAllF, hnext]
          have hpl : run ++ q :: qs = plines := by
            have h0 := spanWS_append plines
            rw [hsp] at h0
            exact h0
          have hlen2 : qs.length ≤ n := by
            have h0 : plines.length = run.length + (qs.length + 1) := by
              rw [← hpl]
              simp only [List.length_append, List.length_cons]
            omega
          have hfuel2 : (joinCRLF qs).length < f := by
            have h0 : (joinCRLF plines).length
                = (joinCRLF run).length + (q.length + 2 + (joinCRLF qs).length) := by
              rw [← hpl, joinCRLF_append, List.length_append]
              simp only [joinCRLF, List.length_append, List.length_cons]
              omega
            omega
          have hgood2 : ∀ x ∈ qs, x ≠ [] ∧ '\r' ∉ x ∧ '\n' ∉ x := fun x hx =>
            hgood x (by
              rw [← hpl]
              exact List.mem_append_right _ (List.mem_cons_of_mem _ hx))
          rw [ih qs q f hlen2 hfuel2 hgood2]
          rw [chop_span_cons plines buf run q qs hsp]

/-- The full unfolder run over good physical lines from the fresh state, with
the first physical line not whitespace-led. -/
theorem unfoldAll_join_fresh : ∀ (p : List Char) (ps : List (List Char)),
    (∀ x ∈ p :: ps, x ≠ [] ∧ '\r' ∉ x ∧ '\n' ∉ x) → wsHead p = false →
    unfoldAll ⟨joinCRLF (p :: ps), none⟩ = (chopLogical p ps, false) := by
  intro p ps hgood hws
  have hp := hgood p (List.mem_cons_self _ _)
  have hgt : ∀ x ∈ ps, x ≠ [] ∧ '\r' ∉ x ∧ '\n' ∉ x :=
    fun x hx => hgood x (List.mem_cons_of_mem _ hx)
  have hnext : unfoldNext ⟨joinCRLF (p :: ps), none⟩
      = unfoldLoopF ((joinCRLF ps).length + 1) p (joinCRLF ps) := by
    show unfoldNext ⟨p ++ '\r' :: '\n' :: joinCRLF ps, none⟩ = _
    simp only [unfoldNext, readUntilCR_split _ hp.2.1]
    rw [if_neg (show ¬(p ++ ['\r'] = []) by simp)]
    rw [wsHead_append hp.1, hws]
    simp only [Bool.false_eq_true, if_false]
    rw [if_pos (getLast?_concat' p '\r')]
    simp only [dropLast_concat', if_true]
  rcases hsp : spanWS ps with ⟨run, rest⟩
  cases rest with
  | nil =>
      have hn2 : unfoldNext ⟨joinCRLF (p :: ps), none⟩ = (.eos, ⟨[], none⟩) :=
        hnext.trans (unfoldLoopF_join_nil ps p _ run (Nat.lt_succ_self _) hgt hsp)
      show unfoldAllF ((joinCRLF (p :: ps)).length + 1) _ = _
      simp only [unfoldAllF, hn2]
      rw [chop_span_nil ps p run hsp]
  | cons q qs =>
      have hn2 : unfoldNext ⟨joinCRLF (p :: ps), none⟩
          = (.ok (p ++ concatL (run.map List.tail)), ⟨joinCRLF qs, some q⟩) :=
        hnext.trans
          (unfoldLoopF_join_cons ps p _ run q qs (Nat.lt_succ_self _) hgt hsp)
      show unfoldAllF ((joinCRLF (p :: ps)).length + 1) _ = _
      simp only [unfoldAllF, hn2]
      have hpl : run ++ q :: qs = ps := by
        have h0 := spanWS_append ps
        rw [hsp] at h0
        exact h0
      have hqlen : (joinCRLF qs).length < (joinCRLF (p :: ps)).length := by
        have h0 : (joinCRLF ps).length
            = (joinCRLF run).length + (q.length + 2 + (joinCRLF qs).length) := by
          rw [← hpl, joinCRLF_append, List.length_append]
          simp only [joinCRLF, List.length_append, List.length_cons]
          omega
        have h1 : (joinCRLF (p :: ps)).length
            = p.length + 2 + (joinCRLF ps).length := by
          simp only [joinCRLF, List.length_append, List.length_cons]
          omega
        omega
      rw [unfoldAllF_join_some qs.length qs q ((joinCRLF (p :: ps)).length)
        (le_refl _) hqlen
        (fun x hx => hgt x (by
          rw [← hpl]
          exact List.mem_append_right _ (List.mem_cons_of_mem _ hx)))]
      rw [chop_span_cons ps p run q qs hsp]

/-- Segments of a good line are nonempty and CR/LF-free. -/
theorem segs_good : ∀ (l : List Char), goodLine l →
    ∀ s ∈ foldSegs 75 l 0, s ≠ [] ∧ '\r' ∉ s ∧ '\n' ∉ s := by
  intro l hl s hs
  refine ⟨?_, ?_, ?_⟩
  · rcases hl0 : l with _ | ⟨c, cs⟩
    · exact absurd hl0 hl.1
    · obtain ⟨s0, ss, hform⟩ := foldSegs75_head c cs
      rw [hl0, hform] at hs
      cases hs with
      | head => simp
      | tail _ h2 =>
          exact (foldSegs_tail_ws 75 (c :: cs) 0 s (by rw [hform]; exact h2)).1
  · intro hmem
    rcases foldSegs_mem_chars 75 l 0 s '\r' hs hmem with h | h
    · exact absurd h (by decide)
    · exact hl.2.1 h
  · intro hmem
    rcases foldSegs_mem_chars 75 l 0 s '\n' hs hmem with h | h
    · exact absurd h (by decide)
    · exact hl.2.2.1 h

theorem plines_good : ∀ (lines : List (List Char)), (∀ l ∈ lines, goodLine l) →
    ∀ p ∈ concatL (lines.map (fun x => foldSegs 75 x 0)),
      p ≠ [] ∧ '\r' ∉ p ∧ '\n' ∉ p := by
  intro lines hg p hp
  rcases mem_concatL.mp hp with ⟨seglist, hin, hpseg⟩
  rcases List.mem_map.mp hin with ⟨l, hl, rfl⟩
  exact segs_good l (hg l hl) p hpseg

theorem joinCRLF_map_fold : ∀ (lines : List (List Char)),
    joinCRLF (lines.map fold)
      = joinCRLF (concatL (lines.map (fun x => foldSegs 75 x 0))) := by
  intro lines
  induction lines with
  | nil => rfl
  | cons l ls ih =>
      have hseg : joinCRLF (foldSegs 75 l 0) = fold l ++ ['\r', '\n'] := by
        rw [← interCRLF_append_crlf _ (foldSegs_ne_nil 75 l 0)]
        rw [show fold l = interCRLF (foldSegs 75 l 0) from foldGo_eq_interCRLF 75 l 0]
      simp only [List.map_cons, concatL, joinCRLF, joinCRLF_append, hseg, ih]
      simp [List.append_assoc]

/-- `fold_and_join` is the CRLF-joined stream of all physical segments. -/
theorem foldAndJoin_eq_join : ∀ (lines : List (List Char)), lines ≠ [] →
    foldAndJoin lines = joinCRLF (concatL (lines.map (fun x => foldSegs 75 x 0))) := by
  intro lines hne
  show interCRLF (lines.map fold) ++ ['\r', '\n'] = _
  rw [interCRLF_append_crlf _ (by
    intro h
    exact hne (List.map_eq_nil_iff.mp h))]
  exact joinCRLF_map_fold lines

theorem chop_absorb : ∀ (conts : List (List Char)) (buf : List Char)
    (rest : List (List Char)),
    (∀ x ∈ conts, wsHead x = true) →
    chopLogical buf (conts ++ rest)
      = chopLogical (buf ++ concatL (conts.map List.tail)) rest := by
  intro conts
  induction conts with
  | nil => intro buf rest _; simp [concatL]
  | cons c cs ih =>
      intro buf rest hws
      have h1 := hws c (List.mem_cons_self _ _)
      simp only [List.cons_append, chopLogical, if_pos h1, List.append_eq]
      rw [ih (buf ++ c.tail) rest (fun x hx => hws x (List.mem_cons_of_mem _ hx))]
      simp [concatL, List.append_assoc]

/-- Chopping the segment stream of good lines yields every line but the last. -/
theorem chop_main : ∀ (ls : List (List Char)) (cur : List Char),
    (∀ l ∈ ls, goodLine l) →
    chopLogical cur (concatL (ls.map (fun x => foldSegs 75 x 0)))
      = List.map Except.ok ((cur :: ls).dropLast) := by
  intro ls
  induction ls with
  | nil => intro cur _; rfl
  | cons l ls2 ih =>
      intro cur hg
      have hl := hg l (List.mem_cons_self _ _)
      rcases hl0 : l with _ | ⟨c, cs⟩
      · exact absurd hl0 hl.1
      · obtain ⟨s0, ss, hform⟩ := foldSegs75_head c cs
        rw [hl0] at hl
        simp only [List.map_cons, concatL, hl0, hform]
        have hc : wsHead (c :: s0) = false := by
          have h0 := hl.2.2.2
          simpa [wsHead] using h0
        rw [List.cons_append]
        simp only [chopLogical, hc, Bool.false_eq_true, if_false]
        rw [chop_absorb ss (c :: s0) _
          (fun x hx => (foldSegs_tail_ws 75 (c :: cs) 0 x (by rw [hform]; exact hx)).2)]
        rw [foldSegs_reassemble 75 (c :: cs) 0 (c :: s0) ss hform]
        rw [ih (c :: cs) (fun x hx => hg x (List.mem_cons_of_mem _ hx))]
        rfl

/-- C4 counterexample: for `lines = ["A:B"]`, `fold_and_join` produces
"A:B\r\n" and unfolding it yields nothing at all — the only (hence last)
logical line is discarded at clean EOF — so the round trip does not return
the original sequence of lines. -/
theorem c4_counterexample :
    unfoldAll ⟨foldAndJoin [cstr "A:B"], none⟩ = ([], false)
    ∧ ([] : List (Except UnfoldErr (List Char))) ≠ [Except.ok (cstr "A:B")] :=
  ⟨rfl, by simp⟩

/-- C4 amended: for every sequence of nonempty logical lines in which no line
contains CR or LF and no line begins with SPACE or TAB, folding each line,
joining with CRLF and appending a trailing CRLF, then running the unfolder
over the result yields exactly the original lines WITHOUT the last one (each
Ok, in order, no panic): the final logical line is discarded at clean EOF. -/
theorem c4_amended :
    ∀ (lines : List (List Char)), (∀ l ∈ lines, goodLine l) →
      unfoldAll ⟨foldAndJoin lines, none⟩
        = ((lines.dropLast).map Except.ok, false) := by
  intro lines hgood
  cases lines with
  | nil => rfl
  | cons l ls =>
      have hl := hgood l (List.mem_cons_self _ _)
      rcases hl0 : l with _ | ⟨c, cs⟩
      · exact absurd hl0 hl.1
      · subst hl0
        obtain ⟨s0, ss, hform⟩ := foldSegs75_head c cs
        rw [foldAndJoin_eq_join _ (List.cons_ne_nil _ _)]
        have hgoodpl := plines_good _ hgood
        have hconcat : concatL (((c :: cs) :: ls).map (fun x => foldSegs 75 x 0))
            = (c :: s0) :: (ss ++ concatL (ls.map (fun x => foldSegs 75 x 0))) := by
          simp only [List.map_cons, concatL, hform, List.cons_append]
        rw [hconcat]
        rw [hconcat] at hgoodpl
        have hws : wsHead (c :: s0) = false := by
          have h0 := hl.2.2.2
          simpa [wsHead] using h0
        rw [unfoldAll_join_fresh (c :: s0) _ hgoodpl hws]
        rw [chop_absorb ss (c :: s0) _
          (fun x hx => (foldSegs_tail_ws 75 (c :: cs) 0 x (by rw [hform]; exact hx)).2)]
        rw [foldSegs_reassemble 75 (c :: cs) 0 (c :: s0) ss hform]
        rw [chop_main ls (c :: cs) (fun x hx => hgood x (List.mem_cons_of_mem _ hx))]

/-- C4 witness: instance of `c4_amended` at two concrete lines; the first is
returned, the second (last) is discarded. -/
theorem c4_witness :
    (∀ l ∈ [cstr "A:B", cstr "C:D"], goodLine l)
    ∧ unfoldAll ⟨foldAndJoin [cstr "A:B", cstr "C:D"], none⟩
        = ([Except.ok (cstr "A:B")], false) :=
  ⟨by decide, c4_amended [cstr "A:B", cstr "C:D"] (by decide)⟩
